import Mathlib

/-!
Verification of the repo-check concurrent repository-status scanner
(`src/repo_check/cli.py`) against its specification.

The Python code is shallowly embedded: external `git` invocations become an
oracle function, `subprocess` spawn failure (a raised `FileNotFoundError`)
becomes the `Except.error` channel, the filesystem becomes a function from a
path to its directory entries, and the asyncio scheduler of `_run_checks`
becomes an explicit small-step transition system over scheduler states.
-/

namespace RepoCheck

/-- `RepoResult` dataclass from `cli.py`: the outcome of probing one folder. -/
structure RepoResult where
  name : String
  path : String
  is_repo : Bool
  branch : Option String
  is_clean : Option Bool
  error : Option String
deriving DecidableEq, Repr

/-- One completed external `git` process: return code, stdout, stderr
(as delivered by `subprocess.run` before stripping). -/
structure GitCompleted where
  code : Int
  out : String
  err : String
deriving DecidableEq, Repr

/-- The external `git` tool as an oracle: given the `-C` path and the argument
list it either completes (`some`) or the spawn itself fails (`none`), which in
Python surfaces as a raised `FileNotFoundError` from `subprocess.run` —
`check=False` only suppresses exit-code exceptions, not spawn failures. -/
def GitOracle : Type := String → List String → Option GitCompleted

/-- Python `str.strip()`: drop leading and trailing whitespace. -/
def strip (s : String) : String :=
  String.mk
    (((s.data.dropWhile Char.isWhitespace).reverse.dropWhile
      Char.isWhitespace).reverse)

/-- `_run_git` from `cli.py`: run git, strip stdout and stderr.  A spawn
failure propagates as an exception (here: `Except.error`). -/
def _run_git (git : GitOracle) (path : String) (args : List String) :
    Except String (Int × String × String) :=
  match git path args with
  | none => .error "FileNotFoundError: git"
  | some c => .ok (c.code, strip c.out, strip c.err)

/-- Python `err or None`: an empty string is falsy and becomes `None`. -/
def strOrNone (s : String) : Option String :=
  if s = "" then none else some s

/-- `_check_repo` from `cli.py`: probe one folder with up to three git calls.
An uncaught exception from `_run_git` (the `.error e => .error e` arms)
propagates out of the function. -/
def _check_repo (git : GitOracle) (path : String) (name : String) :
    Except String RepoResult :=
  match _run_git git path ["rev-parse", "--is-inside-work-tree"] with
  | .error e => .error e
  | .ok (code, _, _) =>
    if code ≠ 0 then .ok ⟨name, path, false, none, none, none⟩
    else
      match _run_git git path ["rev-parse", "--abbrev-ref", "HEAD"] with
      | .error e => .error e
      | .ok (code, branch, err) =>
        if code ≠ 0 then .ok ⟨name, path, true, none, none, strOrNone err⟩
        else
          match _run_git git path ["status", "--porcelain"] with
          | .error e => .error e
          | .ok (code, status, err) =>
            if code ≠ 0 then
              .ok ⟨name, path, true, some branch, none, strOrNone err⟩
            else
              .ok ⟨name, path, true, some branch, some (status == ""), none⟩

/-- One `os.scandir` entry: its name, whether the entry itself is a symbolic
link, and whether the object it designates (after following a symlink) is a
directory.  `entry.is_dir(follow_symlinks=False)` is true exactly when the
entry is a directory and not a symlink. -/
structure DirEntry where
  name : String
  is_symlink : Bool
  is_dir_target : Bool
deriving DecidableEq, Repr

/-- `DirEntry.is_dir(follow_symlinks=False)`. -/
def entryIsDirNoFollow (e : DirEntry) : Bool :=
  !e.is_symlink && e.is_dir_target

/-- The filesystem as an oracle: the `os.scandir` listing of each path. -/
def Fs : Type := String → List DirEntry

/-- `os.path.join`-style path of a scandir entry (`entry.path`). -/
def entryPath (base : String) (name : String) : String :=
  base ++ "/" ++ name

/-- Python `str.lower()` as the character sequence of the lowered name. -/
def lowerKey (s : String) : List Char :=
  s.data.map Char.toLower

/-- `_list_subfolders` from `cli.py`: keep immediate children that are real
directories (symlinks excluded via `follow_symlinks=False`), drop hidden names
unless included, and sort case-insensitively by name (Python `list.sort` with
`key=str.lower`, a stable sort). -/
def _list_subfolders (fs : Fs) (base_path : String) (include_hidden : Bool) :
    List (String × String) :=
  let entries := (fs base_path).filter fun e =>
    entryIsDirNoFollow e && (include_hidden || !e.name.startsWith ".")
  let pairs := entries.map fun e => (e.name, entryPath base_path e.name)
  pairs.insertionSort fun a b => lowerKey a.1 ≤ lowerKey b.1

def ANSI_RESET : String := "\x1b[0m"
def ANSI_RED : String := "\x1b[31m"
def ANSI_GREEN : String := "\x1b[32m"
def ANSI_YELLOW : String := "\x1b[33m"
def ANSI_BLUE : String := "\x1b[34m"
def ANSI_DIM : String := "\x1b[2m"

/-- `_color` from `cli.py`. -/
def _color (text : String) (code : String) (use_color : Bool) : String :=
  if !use_color then text else code ++ text ++ ANSI_RESET

/-- Truthiness of `result.error` in Python: non-`None` and non-empty. -/
def optStrTruthy : Option String → Bool
  | none => false
  | some s => s ≠ ""

/-- The body of the `_render_lines` loop for one target: its display name and
its (possibly pending) result become one table line. -/
def _render_line (name : String) (result : Option RepoResult)
    (use_color : Bool) : String :=
  match result with
  | none => name ++ "  " ++ _color "pending" ANSI_DIM use_color
  | some r =>
    if !r.is_repo then
      name ++ "  " ++ _color "not a git repo" ANSI_YELLOW use_color
    else
      let branch := r.branch.getD "unknown"
      let branch_label :=
        if branch == "HEAD" then _color "detached" ANSI_BLUE use_color
        else _color branch ANSI_BLUE use_color
      let clean_label :=
        match r.is_clean with
        | some true => _color "clean" ANSI_GREEN use_color
        | some false => _color "dirty" ANSI_RED use_color
        | none => _color "unknown" ANSI_YELLOW use_color
      if optStrTruthy r.error then
        name ++ "  " ++ branch_label ++ "  " ++ clean_label ++ "  " ++
          _color "error" ANSI_RED use_color
      else
        name ++ "  " ++ branch_label ++ "  " ++ clean_label

/-- `_render_lines` from `cli.py`: one line per target, iterating the names in
index order and reading `results[idx]`.  The Python loop indexes `results` by
the position of `name`; the two lists always have equal length by the
ResultTable invariant, so the iteration is a `zipWith`. -/
def _render_lines (names : List String) (results : List (Option RepoResult))
    (use_color : Bool) : List String :=
  List.zipWith (fun name r => _render_line name r use_color) names results

/-! Concrete git oracles used as test doubles, mirroring the shapes the test
suite feeds to `_run_git`. -/

/-- A repository with an unborn HEAD: inside a work tree, branch resolution
fails with exit code 128, porcelain status succeeds and is empty (the shape of
`fake_run_git` in `tests/test_cli.py`). -/
def unbornGit : GitOracle := fun _ args =>
  if args = ["rev-parse", "--is-inside-work-tree"] then some ⟨0, "true", ""⟩
  else if args = ["rev-parse", "--abbrev-ref", "HEAD"] then
    some ⟨128, "", "fatal: ambiguous argument HEAD"⟩
  else if args = ["status", "--porcelain"] then some ⟨0, "", ""⟩
  else if args = ["remote", "get-url", "origin"] then some ⟨1, "", ""⟩
  else none

/-- The git executable is absent: every spawn fails. -/
def noGit : GitOracle := fun _ _ => none

/-- A git that always spawns and reports success with empty output. -/
def alwaysGit : GitOracle := fun _ _ => some ⟨0, "", ""⟩

/-- A path that is not inside a work tree: the very first git call exits
nonzero. -/
def notRepoGit : GitOracle := fun _ _ =>
  some ⟨128, "", "fatal: not a git repository"⟩

end RepoCheck

namespace RepoCheck

/-- C3: on an unborn-HEAD repository (the exact shape the repository's own
test `test_check_repo_unborn_head` stubs in), `_check_repo` records the stderr
text in `error` and leaves `branch = none`, `is_clean = none` — it never
produces the no-commits sentinel with `error = none` and `is_clean = true`
that the test and the spec require. -/
theorem check_repo_unborn_head_records_error :
    _check_repo unbornGit "/tmp/repo" "repo" =
      Except.ok ⟨"repo", "/tmp/repo", true, none, none,
        some "fatal: ambiguous argument HEAD"⟩ := by
  rfl

/-- C7 counterexample: when the git executable cannot be spawned, the probe
does not encode the failure in the result — the exception escapes
`_check_repo`, so no `ok` result exists for this input. -/
theorem check_repo_raises_when_git_missing :
    _check_repo noGit "/work/repos/a" "a" =
      Except.error "FileNotFoundError: git" ∧
    ∀ r : RepoResult,
      _check_repo noGit "/work/repos/a" "a" ≠ Except.ok r := by
  refine ⟨rfl, ?_⟩
  intro r h
  have h2 : (Except.error "FileNotFoundError: git" : Except String RepoResult) =
      Except.ok r := h
  exact Except.noConfusion h2

/-- C7 amended: as long as every external git invocation can be spawned
(returns an exit code at all), `_check_repo` never raises — every outcome,
including nonzero exit codes, is encoded in the returned `RepoResult`. -/
theorem check_repo_total_of_spawn_ok (git : GitOracle) (path name : String)
    (h : ∀ p a, (git p a).isSome) :
    ∃ r : RepoResult, _check_repo git path name = Except.ok r := by
  obtain ⟨c1, e1⟩ :=
    Option.isSome_iff_exists.mp (h path ["rev-parse", "--is-inside-work-tree"])
  obtain ⟨c2, e2⟩ :=
    Option.isSome_iff_exists.mp (h path ["rev-parse", "--abbrev-ref", "HEAD"])
  obtain ⟨c3, e3⟩ :=
    Option.isSome_iff_exists.mp (h path ["status", "--porcelain"])
  simp only [_check_repo, _run_git, e1, e2, e3]
  split
  · exact ⟨_, rfl⟩
  · split
    · exact ⟨_, rfl⟩
    · split
      · exact ⟨_, rfl⟩
      · exact ⟨_, rfl⟩

/-- C7 witness: with a git that always spawns, the probe returns `ok`. -/
theorem check_repo_total_of_spawn_ok_witness :
    ∃ r : RepoResult, _check_repo alwaysGit "/p" "n" = Except.ok r :=
  check_repo_total_of_spawn_ok alwaysGit "/p" "n" (fun _ _ => rfl)

/-- C8: if the first git call reports that the path is not inside a work
tree (nonzero exit), the probe returns `is_repo = false` with branch,
cleanliness and error all absent. -/
theorem check_repo_non_repo (git : GitOracle) (path name : String)
    (c : GitCompleted)
    (h1 : git path ["rev-parse", "--is-inside-work-tree"] = some c)
    (h2 : c.code ≠ 0) :
    _check_repo git path name =
      Except.ok ⟨name, path, false, none, none, none⟩ := by
  simp [_check_repo, _run_git, h1, h2]

/-- C8 witness: a plain folder probes to a non-repo result with no error. -/
theorem check_repo_non_repo_witness :
    _check_repo notRepoGit "/home/x/docs" "docs" =
      Except.ok ⟨"docs", "/home/x/docs", false, none, none, none⟩ :=
  check_repo_non_repo notRepoGit "/home/x/docs" "docs"
    ⟨128, "", "fatal: not a git repository"⟩ rfl (by decide)

/-- C10: every pair emitted by `_list_subfolders` comes from a directory
entry that is a real (non-symlink) directory; in particular a symbolic link,
even one resolving to a directory, is never emitted as a scan target. -/
theorem list_subfolders_only_real_dirs (fs : Fs) (base : String) (ih : Bool)
    (p : String × String) (hp : p ∈ _list_subfolders fs base ih) :
    ∃ e ∈ fs base, e.is_symlink = false ∧ e.is_dir_target = true ∧
      p = (e.name, entryPath base e.name) := by
  simp only [_list_subfolders, List.mem_insertionSort, List.mem_map,
    List.mem_filter] at hp
  obtain ⟨e, ⟨he, hcond⟩, hpe⟩ := hp
  refine ⟨e, he, ?_, ?_, hpe.symm⟩
  · have := (Bool.and_eq_true _ _).mp hcond |>.1
    have := (Bool.and_eq_true _ _).mp this |>.1
    simpa using this
  · have := (Bool.and_eq_true _ _).mp hcond |>.1
    exact (Bool.and_eq_true _ _).mp this |>.2

/-- A directory with a real subdirectory, a symlink to a directory, and a
plain file. -/
def demoLs : Fs := fun p =>
  if p = "/r" then
    [⟨"a", false, true⟩, ⟨"link", true, true⟩, ⟨"f.txt", false, false⟩]
  else []

/-- C10 witness: the one emitted target of `demoLs` traces back to the real
directory entry. -/
theorem list_subfolders_only_real_dirs_witness :
    ∃ e ∈ demoLs "/r", e.is_symlink = false ∧ e.is_dir_target = true ∧
      (("a", "/r/a") : String × String) = (e.name, entryPath "/r" e.name) :=
  list_subfolders_only_real_dirs demoLs "/r" true ("a", "/r/a") (by decide)

/-!
## The bounded concurrent scanner

`_run_checks` spawns one asyncio task per target.  Each task acquires the
semaphore, runs `_check_repo` in an executor while holding it, and — on
resumption, atomically within the event loop — releases the semaphore and
writes `results[idx]`.  We model this as a transition system: a `start i`
event is the semaphore acquisition that launches probe `i`'s external-call
window; a `finish i` event is the probe completing, the release, and the
write of slot `i`.  The adversarial scheduler picks any event order; the
probe outcomes are a fixed list `outs` (slot `i` receives `outs[i]`).
-/

/-- The lifecycle of one `run_one` task. -/
inductive TaskPhase where
  | idle
  | running
  | finished
deriving DecidableEq, Repr

/-- Scheduler state: the semaphore counter, each task's phase, and the shared
`results` list of `_run_checks`. -/
structure SchedState where
  sem : Nat
  phases : List TaskPhase
  results : List (Option RepoResult)
deriving DecidableEq, Repr

/-- One scheduling decision: launch probe `i` (acquire) or complete probe `i`
(release and write slot `i`). -/
inductive SchedEvent where
  | start (i : Nat)
  | finish (i : Nat)
deriving DecidableEq, Repr

/-- The state of `_run_checks` before any task runs: `Semaphore(max_workers)`
fresh, every task pending, `results = [None] * len(names)`. -/
def initState (W N : Nat) : SchedState :=
  ⟨W, List.replicate N .idle, List.replicate N none⟩

/-- One guarded step of the scheduler.  `start i` needs task `i` idle and a
free semaphore slot; `finish i` needs task `i` inside its external-call
window, and deposits `outs[i]` into slot `i` while releasing the semaphore. -/
def stepE (outs : List RepoResult) (s : SchedState) :
    SchedEvent → Option SchedState
  | .start i =>
    if s.phases[i]? = some .idle ∧ 0 < s.sem then
      some ⟨s.sem - 1, s.phases.set i .running, s.results⟩
    else none
  | .finish i =>
    if s.phases[i]? = some .running then
      match outs[i]? with
      | some r =>
        some ⟨s.sem + 1, s.phases.set i .finished, s.results.set i (some r)⟩
      | none => none
    else none

/-- Run a whole interleaving (list of events) from a state. -/
def runTrace (outs : List RepoResult) : SchedState → List SchedEvent →
    Option SchedState
  | s, [] => some s
  | s, e :: t =>
    match stepE outs s e with
    | none => none
    | some s2 => runTrace outs s2 t

/-- Number of probes currently inside their external-call window. -/
def countRunning (s : SchedState) : Nat :=
  s.phases.countP (· == TaskPhase.running)

/-- All tasks have completed (the state `asyncio.gather` returns in). -/
def allFinished (s : SchedState) : Bool :=
  s.phases.all (· == TaskPhase.finished)

/-- The scanner's state invariant: table sizes are fixed, the semaphore
counter plus the number of in-flight probes equals the worker cap, a finished
slot holds exactly its own target's probe outcome, and an unfinished slot is
still pending. -/
def Inv (W : Nat) (outs : List RepoResult) (s : SchedState) : Prop :=
  s.phases.length = outs.length ∧
  s.results.length = outs.length ∧
  s.sem + countRunning s = W ∧
  ∀ i, i < outs.length →
    (s.phases[i]? = some .finished → s.results[i]? = some outs[i]?) ∧
    (s.phases[i]? ≠ some .finished → s.results[i]? = some none)

/-- Setting one element moves `countP` by the indicator difference of the old
and new values. -/
theorem countP_set_balance (p : α → Bool) :
    ∀ (l : List α) (i : Nat) (a b : α), l[i]? = some a →
      (l.set i b).countP p + (if p a then 1 else 0) =
        l.countP p + (if p b then 1 else 0)
  | [], i, a, b, h => by simp at h
  | x :: xs, 0, a, b, h => by
    simp only [List.getElem?_cons_zero, Option.some.injEq] at h
    subst h
    simp only [List.set_cons_zero, List.countP_cons]
    omega
  | x :: xs, i + 1, a, b, h => by
    simp only [List.getElem?_cons_succ] at h
    have := countP_set_balance p xs i a b h
    simp only [List.set_cons_succ, List.countP_cons]
    omega

/-- In a list with at most one element satisfying `p`, two positions holding
satisfying elements coincide. -/
theorem countP_le_one_unique (p : α → Bool) :
    ∀ (l : List α) (i j : Nat) (a b : α), l.countP p ≤ 1 →
      l[i]? = some a → l[j]? = some b → p a → p b → i = j
  | [], i, j, a, b, _, hi, _, _, _ => by simp at hi
  | x :: xs, 0, 0, a, b, _, _, _, _, _ => rfl
  | x :: xs, 0, j + 1, a, b, hc, hi, hj, hpa, hpb => by
    simp only [List.getElem?_cons_zero, Option.some.injEq] at hi
    subst hi
    simp only [List.getElem?_cons_succ] at hj
    rw [List.countP_cons, if_pos hpa] at hc
    have hzero : xs.countP p = 0 := by omega
    exact absurd hpb (List.countP_eq_zero.mp hzero b (List.getElem?_mem hj))
  | x :: xs, i + 1, 0, a, b, hc, hi, hj, hpa, hpb => by
    simp only [List.getElem?_cons_zero, Option.some.injEq] at hj
    subst hj
    simp only [List.getElem?_cons_succ] at hi
    rw [List.countP_cons, if_pos hpb] at hc
    have hzero : xs.countP p = 0 := by omega
    exact absurd hpa (List.countP_eq_zero.mp hzero a (List.getElem?_mem hi))
  | x :: xs, i + 1, j + 1, a, b, hc, hi, hj, hpa, hpb => by
    simp only [List.getElem?_cons_succ] at hi hj
    have hc2 : xs.countP p ≤ 1 := by
      rw [List.countP_cons] at hc
      omega
    exact congrArg Nat.succ (countP_le_one_unique p xs i j a b hc2 hi hj hpa hpb)

/-- A position holding a value is inside the list. -/
theorem lt_length_of_getElem?_eq_some {l : List α} {n : Nat} {a : α}
    (h : l[n]? = some a) : n < l.length :=
  (List.getElem?_eq_some_iff.mp h).1

/-- Every scheduler step preserves the scanner invariant. -/
theorem stepE_preserves_inv {W : Nat} {outs : List RepoResult}
    {s s2 : SchedState} {e : SchedEvent}
    (hInv : Inv W outs s) (h : stepE outs s e = some s2) : Inv W outs s2 := by
  obtain ⟨hpl, hrl, hsem, hslots⟩ := hInv
  cases e with
  | start i =>
    simp only [stepE] at h
    split at h
    case isFalse => exact Option.noConfusion h
    case isTrue hcond =>
      obtain ⟨hidle, hpos⟩ := hcond
      injection h with h
      subst h
      have hi : i < outs.length := hpl ▸ lt_length_of_getElem?_eq_some hidle
      refine ⟨by simpa using hpl, by simpa using hrl, ?_, ?_⟩
      · have hbal := countP_set_balance (· == TaskPhase.running) s.phases i
          TaskPhase.idle TaskPhase.running hidle
        simp only [countRunning] at hsem ⊢
        simp at hbal
        omega
      · intro j hj
        by_cases hij : i = j
        · subst hij
          refine ⟨?_, fun _ => (hslots i hi).2 (by rw [hidle]; decide)⟩
          intro hfin
          rw [List.getElem?_set_self (by omega : i < s.phases.length)] at hfin
          exact absurd hfin (by decide)
        · rw [List.getElem?_set_ne hij]
          exact hslots j hj
  | finish i =>
    simp only [stepE] at h
    split at h
    case isFalse => exact Option.noConfusion h
    case isTrue hrun =>
      cases houts : outs[i]? with
      | none => rw [houts] at h; exact Option.noConfusion h
      | some r =>
        rw [houts] at h
        injection h with h
        subst h
        have hi : i < outs.length := lt_length_of_getElem?_eq_some houts
        refine ⟨by simpa using hpl, by simpa using hrl, ?_, ?_⟩
        · have hbal := countP_set_balance (· == TaskPhase.running) s.phases i
            TaskPhase.running TaskPhase.finished hrun
          simp only [countRunning] at hsem ⊢
          simp at hbal
          omega
        · intro j hj
          by_cases hij : i = j
          · subst hij
            refine ⟨fun _ => ?_, fun hnf => ?_⟩
            · rw [List.getElem?_set_self (by omega : i < s.results.length),
                houts]
            · exact absurd
                (List.getElem?_set_self (by omega : i < s.phases.length)) hnf
          · rw [List.getElem?_set_ne hij, List.getElem?_set_ne hij]
            exact hslots j hj

/-- A whole trace preserves the scanner invariant. -/
theorem runTrace_inv {W : Nat} {outs : List RepoResult} :
    ∀ (t : List SchedEvent) (s s2 : SchedState), Inv W outs s →
      runTrace outs s t = some s2 → Inv W outs s2
  | [], s, s2, hInv, h => by
    simp only [runTrace] at h
    injection h with h
    subst h
    exact hInv
  | e :: t, s, s2, hInv, h => by
    simp only [runTrace] at h
    cases hstep : stepE outs s e with
    | none => rw [hstep] at h; exact Option.noConfusion h
    | some s1 =>
      rw [hstep] at h
      exact runTrace_inv t s1 s2 (stepE_preserves_inv hInv hstep) h

/-- The initial state of `_run_checks` satisfies the invariant. -/
theorem initState_inv (W : Nat) (outs : List RepoResult) :
    Inv W outs (initState W outs.length) := by
  refine ⟨by simp [initState], by simp [initState], ?_, ?_⟩
  · have hz : (List.replicate outs.length TaskPhase.idle).countP
        (· == TaskPhase.running) = 0 :=
      List.countP_eq_zero.mpr fun a ha => by
        rw [(List.mem_replicate.mp ha).2]
        decide
    simp only [initState, countRunning, hz]
    omega
  · intro i hi
    refine ⟨fun hfin => ?_, fun _ => ?_⟩
    · rw [show (initState W outs.length).phases =
          List.replicate outs.length TaskPhase.idle from rfl,
        List.getElem?_replicate_of_lt hi] at hfin
      exact absurd hfin (by decide)
    · rw [show (initState W outs.length).results =
          List.replicate outs.length (none : Option RepoResult) from rfl,
        List.getElem?_replicate_of_lt hi]

/-- When `asyncio.gather` has returned, every task's phase is `finished`. -/
theorem phase_finished_of_allFinished {s : SchedState}
    (hFin : allFinished s = true) {n : Nat} (hn : n < s.phases.length) :
    s.phases[n]? = some TaskPhase.finished := by
  rw [List.getElem?_eq_getElem hn]
  have hbeq := List.all_eq_true.mp hFin _ (List.getElem_mem hn)
  have heq : s.phases[n] = TaskPhase.finished := by
    revert hbeq
    generalize s.phases[n] = ph
    cases ph <;> decide
  rw [heq]

/-- A probe labelled with a clean main branch. -/
def resA : RepoResult := ⟨"a", "/r/a", true, some "main", some true, none⟩

/-- A probe of a non-repository folder. -/
def resB : RepoResult := ⟨"b", "/r/b", false, none, none, none⟩

/-- A probe whose error field is populated. -/
def resErr : RepoResult := ⟨"c", "/r/c", true, none, none, some "boom"⟩

/-- C2: under any interleaving admitted by the semaphore of `_run_checks`, at
most `W` probes are inside their external-call window at once; with `W = 1`
two simultaneously running probes must be the same one, so no two
external-call windows ever overlap. -/
theorem scanner_respects_worker_cap (W : Nat) (outs : List RepoResult)
    (t : List SchedEvent) (s : SchedState) (_hW : 0 < W)
    (h : runTrace outs (initState W outs.length) t = some s) :
    countRunning s ≤ W ∧
    (W = 1 → ∀ i j : Nat, s.phases[i]? = some TaskPhase.running →
      s.phases[j]? = some TaskPhase.running → i = j) := by
  have hInv := runTrace_inv t _ s (initState_inv W outs) h
  obtain ⟨_, _, hsem, _⟩ := hInv
  refine ⟨by omega, fun hW1 i j hi hj => ?_⟩
  have hcount : s.phases.countP (· == TaskPhase.running) ≤ 1 := by
    simp only [countRunning] at hsem
    omega
  exact countP_le_one_unique (· == TaskPhase.running) s.phases i j _ _ hcount
    hi hj (by decide) (by decide)

/-- C2 witness: with cap 1 and two targets, after launching probe 0 exactly
one probe is running. -/
theorem scanner_respects_worker_cap_witness :
    countRunning ⟨0, [TaskPhase.running, TaskPhase.idle], [none, none]⟩ ≤ 1 ∧
    (1 = 1 → ∀ i j : Nat,
      (⟨0, [TaskPhase.running, TaskPhase.idle],
        [none, none]⟩ : SchedState).phases[i]? = some TaskPhase.running →
      (⟨0, [TaskPhase.running, TaskPhase.idle],
        [none, none]⟩ : SchedState).phases[j]? = some TaskPhase.running →
      i = j) :=
  scanner_respects_worker_cap 1 [resA, resB] [SchedEvent.start 0]
    ⟨0, [TaskPhase.running, TaskPhase.idle], [none, none]⟩ (by decide) rfl

/-- C1: whatever completion interleaving the scheduler chooses, once all
tasks are finished the result table holds each target's own probe outcome at
the target's index, so the rendered table is in scan-target order — identical
to the canonical index-ordered rendering, never in completion order. -/
theorem final_table_in_target_order (W : Nat) (outs : List RepoResult)
    (names : List String) (t : List SchedEvent) (s : SchedState) (c : Bool)
    (_hn : names.length = outs.length)
    (h : runTrace outs (initState W outs.length) t = some s)
    (hFin : allFinished s = true) :
    s.results = outs.map some ∧
    _render_lines names s.results c = _render_lines names (outs.map some) c := by
  have hInv := runTrace_inv t _ s (initState_inv W outs) h
  obtain ⟨hpl, hrl, _, hslots⟩ := hInv
  have hres : s.results = outs.map some := by
    apply List.ext_getElem?
    intro n
    by_cases hn2 : n < outs.length
    · have hphase := phase_finished_of_allFinished hFin
        (show n < s.phases.length by omega)
      rw [(hslots n hn2).1 hphase, List.getElem?_map,
        List.getElem?_eq_getElem hn2]
      rfl
    · rw [List.getElem?_eq_none (by omega : s.results.length ≤ n),
        List.getElem?_eq_none (by simp; omega : (outs.map some).length ≤ n)]
  exact ⟨hres, by rw [hres]⟩

/-- C1 witness: a two-target run completed in reverse order still renders in
target order. -/
theorem final_table_in_target_order_witness :
    (⟨2, [TaskPhase.finished, TaskPhase.finished],
      [some resA, some resB]⟩ : SchedState).results =
        [resA, resB].map some ∧
    _render_lines ["a", "b"]
      (⟨2, [TaskPhase.finished, TaskPhase.finished],
        [some resA, some resB]⟩ : SchedState).results false =
    _render_lines ["a", "b"] ([resA, resB].map some) false :=
  final_table_in_target_order 2 [resA, resB] ["a", "b"]
    [SchedEvent.start 0, SchedEvent.start 1, SchedEvent.finish 1,
      SchedEvent.finish 0]
    ⟨2, [TaskPhase.finished, TaskPhase.finished], [some resA, some resB]⟩
    false rfl rfl rfl

/-- Once a task is finished it never transitions again: no later event in a
valid trace is a `finish` for it, and it stays finished. -/
theorem runTrace_finish_frozen (outs : List RepoResult) (i : Nat) :
    ∀ (t : List SchedEvent) (s s2 : SchedState),
      s.phases[i]? = some TaskPhase.finished →
      runTrace outs s t = some s2 →
      t.count (SchedEvent.finish i) = 0 ∧
        s2.phases[i]? = some TaskPhase.finished
  | [], s, s2, hfin, h => by
    simp only [runTrace] at h
    injection h with h
    subst h
    exact ⟨rfl, hfin⟩
  | e :: t, s, s2, hfin, h => by
    simp only [runTrace] at h
    cases hstep : stepE outs s e with
    | none => rw [hstep] at h; exact Option.noConfusion h
    | some s1 =>
      rw [hstep] at h
      have key : e ≠ SchedEvent.finish i ∧
          s1.phases[i]? = some TaskPhase.finished := by
        cases e with
        | start j =>
          simp only [stepE] at hstep
          split at hstep
          case isFalse => exact Option.noConfusion hstep
          case isTrue hcond =>
            obtain ⟨hidle, _⟩ := hcond
            injection hstep with hstep
            subst hstep
            have hij : j ≠ i := by
              intro hji
              rw [hji, hfin] at hidle
              exact absurd hidle (by simp)
            exact ⟨by simp, by rw [List.getElem?_set_ne hij]; exact hfin⟩
        | finish j =>
          simp only [stepE] at hstep
          split at hstep
          case isFalse => exact Option.noConfusion hstep
          case isTrue hrun =>
            have hij : j ≠ i := by
              intro hji
              rw [hji, hfin] at hrun
              exact absurd hrun (by simp)
            cases houts : outs[j]? with
            | none => rw [houts] at hstep; exact Option.noConfusion hstep
            | some r =>
              rw [houts] at hstep
              injection hstep with hstep
              subst hstep
              refine ⟨fun heq => hij ?_, by
                rw [List.getElem?_set_ne hij]; exact hfin⟩
              injection heq
      obtain ⟨hne, hfin1⟩ := key
      obtain ⟨hcnt, hfin2⟩ := runTrace_finish_frozen outs i t s1 s2 hfin1 h
      refine ⟨?_, hfin2⟩
      rw [List.count_cons, hcnt]
      simp [hne]

/-- In any valid trace, each slot is written (its task finished) at most
once. -/
theorem runTrace_finish_once (outs : List RepoResult) (i : Nat) :
    ∀ (t : List SchedEvent) (s s2 : SchedState),
      runTrace outs s t = some s2 → t.count (SchedEvent.finish i) ≤ 1
  | [], _, _, _ => by simp
  | e :: t, s, s2, h => by
    simp only [runTrace] at h
    cases hstep : stepE outs s e with
    | none => rw [hstep] at h; exact Option.noConfusion h
    | some s1 =>
      rw [hstep] at h
      by_cases he : e = SchedEvent.finish i
      · subst he
        have hfin1 : s1.phases[i]? = some TaskPhase.finished := by
          simp only [stepE] at hstep
          split at hstep
          case isFalse => exact Option.noConfusion hstep
          case isTrue hrun =>
            cases houts : outs[i]? with
            | none => rw [houts] at hstep; exact Option.noConfusion hstep
            | some r =>
              rw [houts] at hstep
              injection hstep with hstep
              subst hstep
              exact List.getElem?_set_self (lt_length_of_getElem?_eq_some hrun)
        have hz := (runTrace_finish_frozen outs i t s1 s2 hfin1 h).1
        rw [List.count_cons, hz]
        simp
      · have hrec := runTrace_finish_once outs i t s1 s2 h
        rw [List.count_cons]
        have : (e == SchedEvent.finish i) = false := by
          simpa using he
        rw [this]
        simpa using hrec

/-- C4: along every valid interleaving the result table keeps exactly one
slot per target, each slot is written at most once, and once all tasks are
finished every slot is populated. -/
theorem result_table_slot_invariants (W : Nat) (outs : List RepoResult)
    (t : List SchedEvent) (s : SchedState)
    (h : runTrace outs (initState W outs.length) t = some s) :
    s.results.length = outs.length ∧
    (∀ i : Nat, t.count (SchedEvent.finish i) ≤ 1) ∧
    (allFinished s = true → ∀ x ∈ s.results, x.isSome = true) := by
  have hInv := runTrace_inv t _ s (initState_inv W outs) h
  obtain ⟨hpl, hrl, _, hslots⟩ := hInv
  refine ⟨hrl, fun i => runTrace_finish_once outs i t _ s h,
    fun hFin x hx => ?_⟩
  obtain ⟨n, hn⟩ := List.getElem?_of_mem hx
  have hlt : n < outs.length := by
    rw [← hrl]
    exact lt_length_of_getElem?_eq_some hn
  have hphase := phase_finished_of_allFinished hFin
    (show n < s.phases.length by omega)
  have hval := (hslots n hlt).1 hphase
  rw [hn, List.getElem?_eq_getElem hlt] at hval
  injection hval with hval
  rw [hval]
  rfl

/-- C4 witness: a complete one-target run keeps one populated, once-written
slot. -/
theorem result_table_slot_invariants_witness :
    (⟨1, [TaskPhase.finished], [some resA]⟩ : SchedState).results.length =
      [resA].length ∧
    (∀ i : Nat, ([SchedEvent.start 0, SchedEvent.finish 0].count
      (SchedEvent.finish i)) ≤ 1) ∧
    (allFinished (⟨1, [TaskPhase.finished], [some resA]⟩ : SchedState) =
        true →
      ∀ x ∈ (⟨1, [TaskPhase.finished],
        [some resA]⟩ : SchedState).results, x.isSome = true) :=
  result_table_slot_invariants 1 [resA]
    [SchedEvent.start 0, SchedEvent.finish 0]
    ⟨1, [TaskPhase.finished], [some resA]⟩ rfl

/-- A serial schedule that runs tasks `k, k+1, …` one after the other. -/
def serialTrace : Nat → Nat → List SchedEvent
  | _, 0 => []
  | k, m + 1 =>
    SchedEvent.start k :: SchedEvent.finish k :: serialTrace (k + 1) m

/-- The state after the first `k` targets have been probed serially. -/
def midState (W : Nat) (outs : List RepoResult) (k : Nat) : SchedState :=
  ⟨W,
   List.replicate k TaskPhase.finished ++
     List.replicate (outs.length - k) TaskPhase.idle,
   (outs.take k).map some ++
     List.replicate (outs.length - k) (none : Option RepoResult)⟩

/-- Unfolding one successful step of `runTrace`. -/
theorem runTrace_cons (outs : List RepoResult) (s : SchedState)
    (e : SchedEvent) (t : List SchedEvent) (s1 : SchedState)
    (h : stepE outs s e = some s1) :
    runTrace outs s (e :: t) = runTrace outs s1 t := by
  simp only [runTrace, h]

/-- Serially probing target `k` advances `midState k` to `midState (k+1)`. -/
theorem serial_step (W : Nat) (outs : List RepoResult) (hW : 0 < W)
    (k m : Nat) (hk : k + (m + 1) = outs.length) (rest : List SchedEvent) :
    runTrace outs (midState W outs k)
      (SchedEvent.start k :: SchedEvent.finish k :: rest) =
    runTrace outs (midState W outs (k + 1)) rest := by
  have hklt : k < outs.length := by omega
  have hkm : outs.length - k = m + 1 := by omega
  have hkm2 : outs.length - (k + 1) = m := by omega
  have hmid : midState W outs k =
      ⟨W,
       List.replicate k TaskPhase.finished ++
         TaskPhase.idle :: List.replicate m TaskPhase.idle,
       (outs.take k).map some ++
         (none : Option RepoResult) :: List.replicate m none⟩ := by
    simp only [midState, hkm, List.replicate_succ]
  have hRlen : ((outs.take k).map some).length = k := by
    simp only [List.length_map, List.length_take]
    omega
  have hcond1 : (List.replicate k TaskPhase.finished ++
      TaskPhase.idle :: List.replicate m TaskPhase.idle)[k]? =
        some TaskPhase.idle := by
    rw [List.getElem?_append_right (by simp)]
    simp
  have hstep1 : stepE outs (midState W outs k) (SchedEvent.start k) =
      some ⟨W - 1,
        List.replicate k TaskPhase.finished ++
          TaskPhase.running :: List.replicate m TaskPhase.idle,
        (outs.take k).map some ++
          (none : Option RepoResult) :: List.replicate m none⟩ := by
    rw [hmid]
    simp only [stepE]
    rw [if_pos ⟨hcond1, hW⟩]
    rw [List.set_append_right _ _ (by simp)]
    simp
  have hcond2 : (List.replicate k TaskPhase.finished ++
      TaskPhase.running :: List.replicate m TaskPhase.idle)[k]? =
        some TaskPhase.running := by
    rw [List.getElem?_append_right (by simp)]
    simp
  have hout : outs[k]? = some outs[k] := List.getElem?_eq_getElem hklt
  have hw : W - 1 + 1 = W := by omega
  have hstep2 : stepE outs
      (⟨W - 1,
        List.replicate k TaskPhase.finished ++
          TaskPhase.running :: List.replicate m TaskPhase.idle,
        (outs.take k).map some ++
          (none : Option RepoResult) :: List.replicate m none⟩ : SchedState)
      (SchedEvent.finish k) =
      some ⟨W,
        List.replicate k TaskPhase.finished ++
          TaskPhase.finished :: List.replicate m TaskPhase.idle,
        (outs.take k).map some ++
          some outs[k] :: List.replicate m none⟩ := by
    simp [stepE, hcond2, hout, hRlen, hw, Nat.min_eq_left hklt.le]
  have hmid2 : (⟨W,
      List.replicate k TaskPhase.finished ++
        TaskPhase.finished :: List.replicate m TaskPhase.idle,
      (outs.take k).map some ++
        some outs[k] :: List.replicate m none⟩ :
        SchedState) = midState W outs (k + 1) := by
    simp only [midState, hkm2]
    congr 1
    · rw [List.replicate_succ']
      simp
    · rw [List.take_succ, hout]
      simp only [Option.toList, List.map_append, List.append_assoc]
      rfl
  rw [runTrace_cons outs _ _ _ _ hstep1, runTrace_cons outs _ _ _ _ hstep2,
    hmid2]

/-- From `midState k`, the serial schedule for the remaining targets reaches
the fully finished state. -/
theorem serial_completes (W : Nat) (outs : List RepoResult) (hW : 0 < W) :
    ∀ (m k : Nat), k + m = outs.length →
      runTrace outs (midState W outs k) (serialTrace k m) =
        some (midState W outs outs.length)
  | 0, k, hk => by
    have hke : k = outs.length := by omega
    subst hke
    simp [serialTrace, runTrace]
  | m + 1, k, hk => by
    rw [serialTrace, serial_step W outs hW k m hk]
    exact serial_completes W outs hW m (k + 1) (by omega)

/-- `_run_checks` starts in `midState 0`. -/
theorem init_eq_midState (W : Nat) (outs : List RepoResult) :
    initState W outs.length = midState W outs 0 := by
  simp [initState, midState]

/-- After the serial schedule finishes, every task is finished. -/
theorem allFinished_midState_final (W : Nat) (outs : List RepoResult) :
    allFinished (midState W outs outs.length) = true := by
  simp only [allFinished, midState, Nat.sub_self, List.replicate_zero,
    List.append_nil]
  exact List.all_eq_true.mpr fun x hx => by
    rw [(List.mem_replicate.mp hx).2]
    rfl

/-- The fully finished serial state holds every target's own result. -/
theorem midState_final_results (W : Nat) (outs : List RepoResult) :
    (midState W outs outs.length).results = outs.map some := by
  simp [midState]

/-- C9: even when some probes fail (their `error` field is populated), a
completing interleaving exists, the run finishes with every slot populated —
the failing target's slot holds its error-carrying result and every other
target's slot holds its own result, so a per-target error never becomes a
process-level failure. -/
theorem per_target_error_not_process_failure (W : Nat)
    (outs : List RepoResult) (hW : 0 < W)
    (_hFail : ∃ (i : Nat) (r : RepoResult), outs[i]? = some r ∧ r.error ≠ none) :
    ∃ (t : List SchedEvent) (s : SchedState),
      runTrace outs (initState W outs.length) t = some s ∧
      allFinished s = true ∧
      ∀ (i : Nat) (r : RepoResult), outs[i]? = some r →
        s.results[i]? = some (some r) := by
  refine ⟨serialTrace 0 outs.length, midState W outs outs.length, ?_,
    allFinished_midState_final W outs, ?_⟩
  · rw [init_eq_midState]
    exact serial_completes W outs hW outs.length 0 (by omega)
  · intro i r hr
    rw [midState_final_results]
    simp [hr]

/-- C9 witness: a single target whose probe reports an error still yields a
completed run with its slot populated. -/
theorem per_target_error_not_process_failure_witness :
    ∃ (t : List SchedEvent) (s : SchedState),
      runTrace [resErr] (initState 1 [resErr].length) t = some s ∧
      allFinished s = true ∧
      ∀ (i : Nat) (r : RepoResult), [resErr][i]? = some r →
        s.results[i]? = some (some r) :=
  per_target_error_not_process_failure 1 [resErr] (by decide)
    ⟨0, resErr, rfl, by decide⟩

/-!
## Spec-modelled components

The test suite (`tests/test_cli.py`) exercises `_build_scan_list`,
`LABEL_NO_COMMITS` and the `upstream_ref` / `origin_url` result fields, none
of which exist in the `cli.py` under `src/`.  The definitions below model
those missing pieces from the specification (§3, §4.1, §4.2).
-/

/-- Modelled from the spec: the sentinel no-commits branch label
(`LABEL_NO_COMMITS` in the test suite) — a label distinct from any real
branch name, denoting a repository with no commits yet. -/
def LABEL_NO_COMMITS : String := "(no commits yet)"

/-- Modelled from the spec: the outcome of resolving the current branch
(§4.2 step 2) — a real branch name, the unborn-HEAD condition, or any other
resolution failure. -/
inductive HeadResolution where
  | onBranch (name : String)
  | unborn
  | failed (msg : String)
deriving DecidableEq, Repr

/-- Modelled from the spec: the observable version-control state of one
path, as seen by the lookups of the §4.2 decision sequence. -/
structure RepoState where
  is_work_tree : Bool
  head : HeadResolution
  status_porcelain : Except String String
  upstream_lookup : Except String String
  origin_lookup : Except String String

/-- Modelled from the spec: the full `ProbeResult` record of §3, with the
best-effort `upstream` / `originURL` fields absent from the stripped-down
`RepoResult` in `src/`. -/
structure ProbeResult where
  name : String
  path : String
  is_repo : Bool
  branch : Option String
  upstream : Option String
  origin_url : Option String
  is_clean : Option Bool
  error : Option String
deriving DecidableEq, Repr

/-- Modelled from the spec: §4.2 steps 3–4 once a branch label is settled —
porcelain cleanliness (failure recorded in `error`, aborting step 4), then
best-effort upstream/origin lookups whose failure is silently `none`. -/
def probeSpecRest (st : RepoState) (path name branch : String) : ProbeResult :=
  match st.status_porcelain with
  | .error msg =>
    ⟨name, path, true, some branch, none, none, none, some msg⟩
  | .ok out =>
    ⟨name, path, true, some branch, st.upstream_lookup.toOption,
      st.origin_lookup.toOption, some (out == ""), none⟩

/-- Modelled from the spec: the §4.2 Status Prober decision sequence, whose
unborn-HEAD handling (step 2) and upstream/origin step (step 4) are missing
from `_check_repo` in `src/` (only `tests/test_cli.py` exercises them).
Step 1: a non-repository is not a failure.  Step 2: unborn HEAD becomes the
sentinel label and probing continues; any other resolution failure is
recorded in `error` and short-circuits with `is_clean = none`. -/
def probeSpec (st : RepoState) (path name : String) : ProbeResult :=
  if !st.is_work_tree then
    ⟨name, path, false, none, none, none, none, none⟩
  else
    match st.head with
    | .failed msg => ⟨name, path, true, none, none, none, none, some msg⟩
    | .onBranch b => probeSpecRest st path name b
    | .unborn => probeSpecRest st path name LABEL_NO_COMMITS

/-- C6: when branch resolution and the cleanliness query succeed but both
the upstream and origin lookups fail, the probe reports no error: the two
remote fields are silently absent while `branch` and `is_clean` are
populated. -/
theorem probe_missing_remote_not_error (st : RepoState)
    (path name b out eu eo : String)
    (hwt : st.is_work_tree = true)
    (hhead : st.head = HeadResolution.onBranch b)
    (hstatus : st.status_porcelain = Except.ok out)
    (hup : st.upstream_lookup = Except.error eu)
    (horig : st.origin_lookup = Except.error eo) :
    probeSpec st path name =
      ⟨name, path, true, some b, none, none, some (out == ""), none⟩ := by
  simp [probeSpec, probeSpecRest, Except.toOption, hwt, hhead, hstatus, hup,
    horig]

/-- A repository on a clean `main` branch with no remote configured. -/
def demoRepoState : RepoState :=
  ⟨true, HeadResolution.onBranch "main", Except.ok "",
    Except.error "no upstream", Except.error "no origin"⟩

/-- C6 witness: the no-remote repository probes to an error-free result with
absent remote fields. -/
theorem probe_missing_remote_not_error_witness :
    probeSpec demoRepoState "/r/a" "a" =
      ⟨"a", "/r/a", true, some "main", none, none,
        some (("" : String) == ""), none⟩ :=
  probe_missing_remote_not_error demoRepoState "/r/a" "a" "main" ""
    "no upstream" "no origin" rfl rfl rfl rfl rfl

/-- Indentation for nesting levels below the first. -/
def indentOf : Nat → String
  | 0 => ""
  | n + 1 => "   " ++ indentOf n

/-- Modelled from the spec: §3's tree-prefixed display name — the bare folder
name at depth 0, a corner-and-dash marker (the repository test expects
`"└─ e"` at depth 1) under indentation below. -/
def displayName (name : String) (depth : Nat) : String :=
  if depth = 0 then name
  else indentOf (depth - 1) ++ "└─ " ++ name

/-- Modelled from the spec: §4.1 step 2 — one root's immediate
subdirectories, hidden and ignored names filtered, sorted case-insensitively
(reusing `_list_subfolders`). -/
def listForBuild (fs : Fs) (root : String) (include_hidden : Bool)
    (ignore_entries : List String) : List (String × String) :=
  (_list_subfolders fs root include_hidden).filter
    fun p => !ignore_entries.contains p.1

/-- Modelled from the spec: §4.1 steps 3–4 — emit each subdirectory at the
current depth; when its path equals a pending (not yet consumed) root,
consume that root and expand its own subdirectories immediately as children
at depth + 1.  `fuel` only bounds the nesting recursion; every nesting
consumes one pending root, so any `fuel ≥ pending.length` is exact. -/
def expandSubdirs (fs : Fs) (include_hidden : Bool)
    (ignore_entries : List String) :
    Nat → List (String × String) → Nat → List String →
      List (String × String) × List String
  | _, [], _, pending => ([], pending)
  | fuel, (name, path) :: rest, depth, pending =>
    let t := (displayName name depth, path)
    if pending.contains path then
      if hf : fuel = 0 then
        let (tail, p2) := expandSubdirs fs include_hidden ignore_entries 0
          rest depth (pending.erase path)
        (t :: tail, p2)
      else
        let (nested, p1) := expandSubdirs fs include_hidden ignore_entries
          (fuel - 1) (listForBuild fs path include_hidden ignore_entries)
          (depth + 1) (pending.erase path)
        let (tail, p2) := expandSubdirs fs include_hidden ignore_entries
          fuel rest depth p1
        (t :: nested ++ tail, p2)
    else
      let (tail, p2) := expandSubdirs fs include_hidden ignore_entries fuel
        rest depth pending
      (t :: tail, p2)
termination_by fuel subs _ _ => (fuel, subs.length)
decreasing_by
  all_goals simp_wf
  all_goals first
    | exact Prod.Lex.left _ _ (by omega)
    | (subst hf; exact Prod.Lex.right _ (by omega))
    | exact Prod.Lex.right _ (by omega)

/-- Modelled from the spec: §4.1 steps 1 and 4 — process the root paths in
the order given, skipping roots already consumed by an earlier expansion,
threading the pending-roots set through. -/
def buildRoots (fs : Fs) (include_hidden : Bool)
    (ignore_entries : List String) :
    List String → List String → List (String × String)
  | [], _ => []
  | r :: rest, pending =>
    if pending.contains r then
      let p := pending.erase r
      let (targets, p1) := expandSubdirs fs include_hidden ignore_entries
        p.length (listForBuild fs r include_hidden ignore_entries) 0 p
      targets ++ buildRoots fs include_hidden ignore_entries rest p1
    else
      buildRoots fs include_hidden ignore_entries rest pending

/-- Modelled from the spec: the Scan-Target Builder `_build_scan_list`
(present in `tests/test_cli.py` but absent from `src/`): merge the ordered
root paths, some possibly nested in others, into one ordered tree-annotated
scan-target sequence of `(display name, path)` pairs. -/
def _build_scan_list (fs : Fs) (roots : List String) (include_hidden : Bool)
    (ignore_entries : List String) : List (String × String) :=
  buildRoots fs include_hidden ignore_entries roots roots

/-- The filesystem of the nested-roots scenario: `base` contains `b` and
`c`, and `base/b` contains `e`. -/
def demoFs : Fs := fun p =>
  if p = "base" then [⟨"b", false, true⟩, ⟨"c", false, true⟩]
  else if p = "base/b" then [⟨"e", false, true⟩]
  else []

/-- C5: with roots `["base", "base/b"]`, the builder emits display names
`["b", "└─ e", "c"]` — the nested root's subfolder expanded as an indented
child directly under the parent's matching subfolder. -/
theorem build_scan_list_nested_roots :
    (_build_scan_list demoFs ["base", "base/b"] true []).map Prod.fst =
      ["b", "└─ e", "c"] := by
  have hbc : lowerKey "b" ≤ lowerKey "c" := by decide
  simp [_build_scan_list, buildRoots, expandSubdirs, listForBuild,
    _list_subfolders, demoFs, entryIsDirNoFollow, entryPath, displayName,
    indentOf, List.insertionSort, List.orderedInsert, hbc]

end RepoCheck
